import Mathlib

/-!
Verification of the egg-roll game (`mp1.py`): a shallow embedding of the
`Direction`, `Grid` and `Leaderboard` classes and of the `game_logic`
movement engine, together with theorems about the wavefront ordering, the
no-overlap invariant, the scoring scenarios, termination and bounds safety.

Conventions of the embedding:
* Python `int` becomes `Int`; coordinates are `(row, column) : Int × Int`.
* The grid `self._grid` (a list of lists of one-character strings) becomes
  `List (List Char)`; the emoji cell symbols are kept verbatim.
* `game_logic`'s outer `while egg_coords:` loop is modelled with an explicit
  fuel argument (`waves`), set to a bound proved sufficient
  (`waves_isSome_of_fuel`); exhausted fuel yields `none`, which the
  termination theorem shows never happens.
* Console and file I/O (`display`, `input`, `file_append`) are omitted;
  `Leaderboard.evaluate` takes the prompted player name as a parameter.
-/

/-- Coordinates: Python `(i, j)` row/column pairs of unbounded ints. -/
abbrev Coord := Int × Int

/-- The cell store of class `Grid`: `self._grid`, a list of rows, each row a
list of one-character cell symbols. -/
abbrev Grid := List (List Char)

/-- The `Axis` enum of `mp1.py`: one enum is used both for the axis and for
the polarity of a direction. -/
inductive Axis
  | HORIZONTAL
  | VERTICAL
  | POSITIVE
  | NEGATIVE
deriving DecidableEq

/-- The four valid direction symbols `'l'`, `'r'`, `'f'`, `'b'`; the
`Direction` class may only be constructed from one of these (any other
symbol raises `KeyError` on `DIR_DCT`, a precondition violation). -/
inductive Dir
  | l
  | r
  | f
  | b
deriving DecidableEq

/-- The `(i, j)` delta of `Direction.DIR_DCT`: `self.coord`. -/
def Dir.coord : Dir → Int × Int
  | .l => (0, -1)
  | .r => (0, 1)
  | .f => (-1, 0)
  | .b => (1, 0)

/-- The axis categorization of `Direction.__init__`'s `match` statement. -/
def Dir.axis : Dir → Axis
  | .l => .HORIZONTAL
  | .r => .HORIZONTAL
  | .f => .VERTICAL
  | .b => .VERTICAL

/-- The polarity categorization of `Direction.__init__`'s `match` statement. -/
def Dir.polarity : Dir → Axis
  | .l => .NEGATIVE
  | .r => .POSITIVE
  | .f => .NEGATIVE
  | .b => .POSITIVE

/-- `Direction.get_next`: the next coord with respect to the direction,
`(i + self._i, j + self._j)`. -/
def Dir.get_next (d : Dir) (c : Coord) : Coord :=
  (c.1 + d.coord.1, c.2 + d.coord.2)

/-- `Grid.__init__`'s `self._rows = len(grid)`. -/
def Grid.rows (g : Grid) : Nat := g.length

/-- `Grid.__init__`'s `self._cols = len(grid[0])` (`0` for an empty grid,
which Python would reject at construction). -/
def Grid.cols (g : Grid) : Nat := (g.headD []).length

/-- The in-bounds test `0 <= i < rows and 0 <= j < cols` of `Grid.peek`,
relative to given row and column counts. -/
def inbRC (R C : Nat) (c : Coord) : Prop :=
  0 ≤ c.1 ∧ c.1 < (R : Int) ∧ 0 ≤ c.2 ∧ c.2 < (C : Int)

instance (R C : Nat) (c : Coord) : Decidable (inbRC R C c) := by
  unfold inbRC; infer_instance

/-- The in-bounds test of `Grid.peek` against the grid's own dimensions. -/
def Grid.inb (g : Grid) (c : Coord) : Prop := inbRC g.rows g.cols c

instance (g : Grid) (c : Coord) : Decidable (g.inb c) := by
  unfold Grid.inb; infer_instance

/-- `Grid.peek`: the symbol at `coord` if in bounds, else `None`. (The
placeholder default `' '` is never read: in a rectangular grid an in-bounds
index always hits a stored cell.) -/
def Grid.peek (g : Grid) (c : Coord) : Option Char :=
  if g.inb c then some ((g.getD c.1.toNat []).getD c.2.toNat ' ') else none

/-- `Grid.update`: `self._grid[i][j] = char`. Only in-bounds writes are
modelled (out of range, Python would wrap a small negative index or raise
`IndexError`); every update `game_logic` performs is in bounds because it is
guarded by `peek` — see `game_logic_updates_in_bounds`. -/
def Grid.update (g : Grid) (c : Coord) (ch : Char) : Grid :=
  if g.inb c then g.set c.1.toNat ((g.getD c.1.toNat []).set c.2.toNat ch) else g

/-- The grid is rectangular: every stored row has `cols` cells. `Grid`s
built by `process_grid` from a well-formed level file satisfy this. -/
def Grid.rect (g : Grid) : Prop := ∀ row ∈ g, row.length = g.cols

instance (g : Grid) : Decidable (g.rect) := by
  unfold Grid.rect; infer_instance

/-- `get_coords`: the row-major list of coordinates of all `char` cells,
`[(i, j) for i in range(r) if char in lgrid[i] for j in range(c) if lgrid[i][j] == char]`. -/
def get_coords (g : Grid) (ch : Char) : List Coord :=
  (List.range g.rows).flatMap fun i =>
    if (g.getD i []).contains ch then
      ((List.range g.cols).filter fun j => (g.getD i []).getD j ' ' = ch).map
        fun j => ((i : Int), (j : Int))
    else []

/-- The strict-weak order on key pairs that Python's tuple comparison
induces: lexicographic `≤` on `Int × Int`. -/
def pairLe (a b : Int × Int) : Prop :=
  a.1 < b.1 ∨ (a.1 = b.1 ∧ a.2 ≤ b.2)

instance (a b : Int × Int) : Decidable (pairLe a b) := by
  unfold pairLe; infer_instance

/-- `game_logic`'s `is_rev = polarity is Axis.NEGATIVE`. -/
def is_rev (d : Dir) : Bool := d.polarity = Axis.NEGATIVE

/-- The sort key of `game_logic`: `lambda tup: tup[::-1]` (column first) when
the axis is horizontal, the identity (`key=None`) when vertical. -/
def wave_key (d : Dir) (c : Coord) : Int × Int :=
  match d.axis with
  | .HORIZONTAL => (c.2, c.1)
  | _ => (c.1, c.2)

/-- The comparator realised by `egg_coords.sort(key=sort_key, reverse=is_rev)`:
ascending in `wave_key` for a positive-polarity direction, descending for a
negative one. On distinct coordinates the keys are distinct, so the sorted
list is unique and stability plays no role. -/
def waveRel (d : Dir) (a b : Coord) : Prop :=
  if is_rev d then pairLe (wave_key d b) (wave_key d a)
  else pairLe (wave_key d a) (wave_key d b)

instance (d : Dir) (a b : Coord) : Decidable (waveRel d a b) := by
  unfold waveRel; infer_instance

instance (d : Dir) : IsTotal Coord (waveRel d) := by
  constructor; intro a b
  cases d <;> simp [waveRel, is_rev, Dir.polarity, wave_key, Dir.axis, pairLe] <;> omega

instance (d : Dir) : IsTrans Coord (waveRel d) := by
  constructor; intro a b c
  cases d <;> simp [waveRel, is_rev, Dir.polarity, wave_key, Dir.axis, pairLe] <;> omega

/-- The order in which `game_logic` pops eggs inside one wave: the list is
sorted with `sort(key=sort_key, reverse=is_rev)` and then consumed from the
back by `egg_coords.pop()`, i.e. processed in the reverse of sorted order. -/
def pop_order (d : Dir) (coords : List Coord) : List Coord :=
  (List.insertionSort (waveRel d) coords).reverse

/-- The mutable state of one run of `game_logic`'s loops: the grid, the
`new_egg_coords` accumulator, the running score, and (for the bounds-safety
statement) the ordered list of `grid.update` calls performed so far. -/
structure SimSt where
  grid : Grid
  coords : List Coord
  points : Int
  log : List (Coord × Char)
deriving DecidableEq

/-- The inner `while egg_coords:` loop of `game_logic`: pop each egg (the
argument list is already in pop order), peek the adjacent cell, and either
move the egg onto floor (and keep it for the next wave), cook it on a pan
(score −5), close an empty nest (score +10+moves), or leave it in place. -/
def processEggs (d : Dir) (mv : Int) : List Coord → SimSt → SimSt
  | [], st => st
  | cur :: rest, st =>
    let nxt := d.get_next cur
    let adj := st.grid.peek nxt
    if adj = some '🟩' then
      processEggs d mv rest
        ⟨(st.grid.update nxt '🥚').update cur '🟩',
         st.coords ++ [nxt], st.points,
         st.log ++ [(nxt, '🥚'), (cur, '🟩')]⟩
    else if adj = some '🍳' then
      processEggs d mv rest
        ⟨(st.grid.update nxt '🍳').update cur '🟩',
         st.coords, st.points - 5,
         st.log ++ [(nxt, '🍳'), (cur, '🟩')]⟩
    else if adj = some '🪹' then
      processEggs d mv rest
        ⟨(st.grid.update nxt '🪺').update cur '🟩',
         st.coords, st.points + (10 + mv),
         st.log ++ [(nxt, '🪺'), (cur, '🟩')]⟩
    else
      processEggs d mv rest st

/-- One wave of `game_logic`: sort the current egg coordinates, then process
them in pop order with an empty `new_egg_coords` accumulator. -/
def wave (d : Dir) (mv : Int) (g : Grid) (coords : List Coord) (pts : Int)
    (log : List (Coord × Char)) : SimSt :=
  processEggs d mv (pop_order d coords) ⟨g, [], pts, log⟩

/-- Termination measure for the outer loop: how many cells of room an egg
has before the boundary in the direction of travel (a moving egg loses one
per wave). -/
def roomLeft (d : Dir) (R C : Nat) (c : Coord) : Nat :=
  match d with
  | .r => ((C : Int) - c.2).toNat
  | .l => (c.2 + 1).toNat
  | .b => ((R : Int) - c.1).toNat
  | .f => (c.1 + 1).toNat

/-- Total room of a wave's egg list; strictly decreases wave over wave. -/
def sumRoom (d : Dir) (R C : Nat) (l : List Coord) : Nat :=
  (l.map (roomLeft d R C)).sum

/-- The outer `while egg_coords:` loop of `game_logic`, with fuel bounding
the number of waves: `none` models a run that needs more waves than the
fuel allows (shown impossible for the fuel `game_logic` passes). -/
def waves (d : Dir) (mv : Int) : Nat → Grid → List Coord → Int →
    List (Coord × Char) → Option SimSt
  | 0, g, coords, pts, log =>
    if coords.isEmpty then some ⟨g, coords, pts, log⟩ else none
  | fuel + 1, g, coords, pts, log =>
    if coords.isEmpty then some ⟨g, coords, pts, log⟩
    else
      let st := wave d mv g coords pts log
      waves d mv fuel st.grid st.coords st.points st.log

/-- What `game_logic` returns (the grid is mutated in place in Python, so it
is part of the result here), plus the update log. -/
structure GLResult where
  state : Bool
  moves : Int
  egg_coords : List Coord
  points : Int
  grid : Grid
  log : List (Coord × Char)
deriving DecidableEq

/-- The `game_logic` function: run waves until no egg continues, recompute
the egg coordinates from the grid, and compute the terminal flag
`bool(moves-1 and egg_coords)`. -/
def game_logic (input_dir : Dir) (g : Grid) (moves : Int)
    (egg_coords : List Coord) (points : Int) : Option GLResult :=
  match waves input_dir moves (sumRoom input_dir g.rows g.cols egg_coords + 1)
      g egg_coords points [] with
  | none => none
  | some st =>
    let coords := get_coords st.grid '🥚'
    some ⟨decide (moves - 1 ≠ 0) && decide (coords ≠ []), moves, coords,
          st.points, st.grid, st.log⟩

/-- `Leaderboard.LENGTH`: the amount of scores to be kept. -/
def LENGTH : Nat := 10

/-- The comparator realised by
`player_w_scores.sort(key=(lambda tup: tup[::-1]), reverse=True)`:
descending lexicographic order on the reversed tuple `(score, name)`. -/
def lbRel (a b : String × Int) : Prop :=
  b.2 < a.2 ∨ (a.2 = b.2 ∧ b.1 ≤ a.1)

instance (a b : String × Int) : Decidable (lbRel a b) := by
  unfold lbRel; infer_instance

instance : IsTotal (String × Int) lbRel := by
  constructor; intro a b
  unfold lbRel
  rcases lt_trichotomy a.2 b.2 with h | h | h
  · exact Or.inr (Or.inl h)
  · rcases le_total a.1 b.1 with h' | h'
    · exact Or.inr (Or.inr ⟨h.symm, h'⟩)
    · exact Or.inl (Or.inr ⟨h, h'⟩)
  · exact Or.inl (Or.inl h)

instance : IsTrans (String × Int) lbRel := by
  constructor; intro a b c hab hbc
  unfold lbRel at *
  rcases hab with h | ⟨h1, h2⟩ <;> rcases hbc with h' | ⟨h1', h2'⟩
  · exact Or.inl (h'.trans h)
  · exact Or.inl (h1' ▸ h)
  · exact Or.inl (h1 ▸ h')
  · exact Or.inr ⟨h1.trans h1', h2'.trans h2⟩

/-- `Leaderboard.sort`: sorts the `(player, score)` pairs by score in
decreasing order (name as tie-break, also descending, since the whole
reversed tuple is the key). -/
def lb_sort (l : List (String × Int)) : List (String × Int) :=
  List.insertionSort lbRel l

/-- Model of `Leaderboard.evaluate` (the pure part; `input()` becomes the
`player_name` parameter and `file_append()` is file I/O, omitted). The state
is `(player_w_scores, min_score)`. Faithful detail: the trim loop
`while score_len > LENGTH: ... pop()` tests the local `score_len` captured
BEFORE the append and never updated, so it pops nothing when
`score_len ≤ LENGTH` and otherwise never exits (pops past empty and dies) —
the latter is modelled as `none`. -/
def Leaderboard.evaluate (entries : List (String × Int)) (min_score : Int)
    (player_name : String) (score : Int) : Option (List (String × Int) × Int) :=
  let score_len := entries.length
  if score_len < LENGTH ∨ min_score < score then
    if LENGTH < score_len then none
    else
      let l := lb_sort (entries ++ [(player_name, score)])
      some (l, ((l.map Prod.snd).min?).getD 0)
  else
    some (entries, min_score)

/-! ## Grid lemmas -/

theorem getD_set_eq_of_lt {α} (l : List α) (i : Nat) (a d : α) (h : i < l.length) :
    (l.set i a).getD i d = a := by
  simp [List.getD, List.getElem?_set_self, h]

theorem getD_set_of_ne {α} (l : List α) {i j : Nat} (a : α) (d : α) (h : i ≠ j) :
    (l.set i a).getD j d = l.getD j d := by
  simp [List.getD, List.getElem?_set_ne, h]

theorem Grid.rows_update (g : Grid) (c : Coord) (ch : Char) :
    (g.update c ch).rows = g.rows := by
  unfold Grid.update
  split <;> simp [Grid.rows]

theorem headD_length_set_inner (l : List (List Char)) (i j : Nat) (ch : Char) :
    ((l.set i ((l.getD i []).set j ch)).headD []).length = (l.headD []).length := by
  match l, i with
  | [], _ => rfl
  | row :: t, 0 => simp [List.getD]
  | row :: t, i + 1 => rfl

theorem Grid.cols_update (g : Grid) (c : Coord) (ch : Char) :
    (g.update c ch).cols = g.cols := by
  unfold Grid.update
  split
  · exact headD_length_set_inner g c.1.toNat c.2.toNat ch
  · rfl

theorem Grid.inb_update (g : Grid) (c c' : Coord) (ch : Char) :
    (g.update c ch).inb c' ↔ g.inb c' := by
  unfold Grid.inb
  rw [Grid.rows_update, Grid.cols_update]

theorem Grid.rect_update (g : Grid) (c : Coord) (ch : Char) (h : g.rect) :
    (g.update c ch).rect := by
  intro row hrow
  rw [Grid.cols_update]
  unfold Grid.update at hrow
  split at hrow
  · by_cases hi : c.1.toNat < g.length
    · rcases List.mem_or_eq_of_mem_set hrow with h' | h'
      · exact h row h'
      · subst h'
        rw [List.length_set]
        have hmem : g.getD c.1.toNat [] ∈ g := by
          rw [List.getD_eq_getElem g [] hi]
          exact List.getElem_mem hi
        exact h _ hmem
    · rw [List.set_eq_of_length_le (Nat.le_of_not_lt hi)] at hrow
      exact h row hrow
  · exact h row hrow

theorem Grid.peek_some_inb {g : Grid} {c : Coord} {ch : Char}
    (h : g.peek c = some ch) : g.inb c := by
  unfold Grid.peek at h
  by_cases hb : g.inb c
  · exact hb
  · rw [if_neg hb] at h; exact absurd h (by simp)

theorem Grid.inb_def (g : Grid) (c : Coord) :
    g.inb c ↔ 0 ≤ c.1 ∧ c.1 < (g.length : Int) ∧ 0 ≤ c.2 ∧
      c.2 < ((g.headD []).length : Int) :=
  Iff.rfl

theorem Grid.peek_update_self (g : Grid) (c : Coord) (ch : Char)
    (hin : g.inb c) (hrect : g.rect) : (g.update c ch).peek c = some ch := by
  have hin' : (g.update c ch).inb c := (Grid.inb_update g c c ch).mpr hin
  unfold Grid.peek
  rw [if_pos hin']
  unfold Grid.update
  rw [if_pos hin]
  have hb := (Grid.inb_def g c).mp hin
  have hi : c.1.toNat < g.length := by omega
  rw [getD_set_eq_of_lt _ _ _ _ hi]
  have hrow : g.getD c.1.toNat [] ∈ g := by
    rw [List.getD_eq_getElem g [] hi]
    exact List.getElem_mem hi
  have hj : c.2.toNat < (g.getD c.1.toNat []).length := by
    rw [hrect _ hrow]
    unfold Grid.cols
    omega
  rw [getD_set_eq_of_lt _ _ _ _ hj]

theorem Grid.peek_update_ne (g : Grid) (c c' : Coord) (ch : Char) (hne : c' ≠ c) :
    (g.update c ch).peek c' = g.peek c' := by
  by_cases hc : g.inb c
  case neg =>
    unfold Grid.update
    rw [if_neg hc]
  case pos =>
    by_cases hc' : g.inb c'
    case neg =>
      have hnot : ¬ (g.update c ch).inb c' := fun h =>
        hc' ((Grid.inb_update g c c' ch).mp h)
      unfold Grid.peek
      rw [if_neg hnot, if_neg hc']
    case pos =>
      have h2 : (g.update c ch).inb c' := (Grid.inb_update g c c' ch).mpr hc'
      unfold Grid.peek
      rw [if_pos h2, if_pos hc']
      unfold Grid.update
      rw [if_pos hc]
      have b1 := (Grid.inb_def g c).mp hc
      have b2 := (Grid.inb_def g c').mp hc'
      by_cases hii : c'.1.toNat = c.1.toNat
      · have hieq : c'.1 = c.1 := by omega
        have hjne : c'.2 ≠ c.2 := fun hje => hne (Prod.ext_iff.mpr ⟨hieq, hje⟩)
        have hjne' : c.2.toNat ≠ c'.2.toNat := by omega
        have hi : c.1.toNat < g.length := by omega
        rw [hii, getD_set_eq_of_lt _ _ _ _ hi, getD_set_of_ne _ _ _ hjne']
      · rw [getD_set_of_ne _ _ _ (fun h => hii h.symm)]

/-! ## The pop order: sortedness facts -/

/-- A direction-signed sort key: for every direction, eggs are popped in
strictly decreasing first component of `skey`, and the cell ahead of an egg
has `skey` first component one larger. -/
def skey (d : Dir) (c : Coord) : Int × Int :=
  match d with
  | .r => (c.2, c.1)
  | .l => (-c.2, -c.1)
  | .b => (c.1, c.2)
  | .f => (-c.1, -c.2)

theorem waveRel_iff_skey (d : Dir) (a b : Coord) :
    waveRel d a b ↔ pairLe (skey d a) (skey d b) := by
  cases d <;>
    simp [waveRel, is_rev, Dir.polarity, wave_key, Dir.axis, pairLe, skey] <;>
    omega

theorem pairwise_pop_order (d : Dir) (coords : List Coord) :
    (pop_order d coords).Pairwise (fun a b => pairLe (skey d b) (skey d a)) := by
  rw [pop_order, List.pairwise_reverse]
  exact (List.sorted_insertionSort (waveRel d) coords).imp
    fun h => (waveRel_iff_skey d _ _).mp h

theorem mem_pop_order {d : Dir} {coords : List Coord} {x : Coord} :
    x ∈ pop_order d coords ↔ x ∈ coords := by
  rw [pop_order, List.mem_reverse]
  exact (List.perm_insertionSort (waveRel d) coords).mem_iff

theorem skey_get_next (d : Dir) (c : Coord) :
    skey d (d.get_next c) = ((skey d c).1 + 1, (skey d c).2) := by
  cases d <;> simp [skey, Dir.get_next, Dir.coord, Prod.ext_iff] <;> omega

theorem get_next_ne (d : Dir) (c : Coord) : d.get_next c ≠ c := by
  cases d <;> simp [Dir.get_next, Dir.coord, Prod.ext_iff]

theorem roomLeft_get_next (d : Dir) (R C : Nat) (c : Coord)
    (h : inbRC R C (d.get_next c)) :
    roomLeft d R C (d.get_next c) + 1 = roomLeft d R C c := by
  rcases h with ⟨h1, h2, h3, h4⟩
  cases d <;> simp only [roomLeft, Dir.get_next, Dir.coord] at * <;> omega

theorem sumRoom_pop_order (d : Dir) (R C : Nat) (coords : List Coord) :
    sumRoom d R C (pop_order d coords) = sumRoom d R C coords := by
  unfold sumRoom
  exact (((List.reverse_perm _).trans
    (List.perm_insertionSort (waveRel d) coords)).map (roomLeft d R C)).sum_eq

/-! ## Wave processing: preservation lemmas -/

theorem processEggs_dims (d : Dir) (mv : Int) :
    ∀ (rem : List Coord) (st : SimSt),
      (processEggs d mv rem st).grid.rows = st.grid.rows ∧
      (processEggs d mv rem st).grid.cols = st.grid.cols := by
  intro rem
  induction rem with
  | nil => intro st; exact ⟨rfl, rfl⟩
  | cons cur rest ih =>
    intro st
    simp only [processEggs]
    by_cases h1 : st.grid.peek (d.get_next cur) = some '🟩'
    · rw [if_pos h1]
      refine ⟨(ih _).1.trans ?_, (ih _).2.trans ?_⟩ <;>
        simp [Grid.rows_update, Grid.cols_update]
    · rw [if_neg h1]
      by_cases h2 : st.grid.peek (d.get_next cur) = some '🍳'
      · rw [if_pos h2]
        refine ⟨(ih _).1.trans ?_, (ih _).2.trans ?_⟩ <;>
          simp [Grid.rows_update, Grid.cols_update]
      · rw [if_neg h2]
        by_cases h3 : st.grid.peek (d.get_next cur) = some '🪹'
        · rw [if_pos h3]
          refine ⟨(ih _).1.trans ?_, (ih _).2.trans ?_⟩ <;>
            simp [Grid.rows_update, Grid.cols_update]
        · rw [if_neg h3]
          exact ih st

theorem processEggs_measure (d : Dir) (mv : Int) (R C : Nat) :
    ∀ (rem : List Coord) (st : SimSt), st.grid.rows = R → st.grid.cols = C →
      sumRoom d R C (processEggs d mv rem st).coords +
          (processEggs d mv rem st).coords.length ≤
        sumRoom d R C st.coords + st.coords.length + sumRoom d R C rem := by
  intro rem
  induction rem with
  | nil =>
    intro st hR hC
    simp [processEggs, sumRoom]
  | cons cur rest ih =>
    intro st hR hC
    have hcons : sumRoom d R C (cur :: rest) =
        roomLeft d R C cur + sumRoom d R C rest := by
      simp [sumRoom]
    simp only [processEggs]
    by_cases h1 : st.grid.peek (d.get_next cur) = some '🟩'
    · rw [if_pos h1]
      have hin : inbRC R C (d.get_next cur) := by
        have hb := Grid.peek_some_inb h1
        simpa [Grid.inb, hR, hC] using hb
      have hroom := roomLeft_get_next d R C cur hin
      have hih := ih
        ⟨(st.grid.update (d.get_next cur) '🥚').update cur '🟩',
         st.coords ++ [d.get_next cur], st.points,
         st.log ++ [(d.get_next cur, '🥚'), (cur, '🟩')]⟩
        (by simp [Grid.rows_update, hR]) (by simp [Grid.cols_update, hC])
      have hsum : sumRoom d R C (st.coords ++ [d.get_next cur]) =
          sumRoom d R C st.coords + roomLeft d R C (d.get_next cur) := by
        simp [sumRoom]
      have hlen : (st.coords ++ [d.get_next cur]).length =
          st.coords.length + 1 := by simp
      simp only [hsum, hlen] at hih
      omega
    · rw [if_neg h1]
      by_cases h2 : st.grid.peek (d.get_next cur) = some '🍳'
      · rw [if_pos h2]
        have hih := ih
          ⟨(st.grid.update (d.get_next cur) '🍳').update cur '🟩',
           st.coords, st.points - 5,
           st.log ++ [(d.get_next cur, '🍳'), (cur, '🟩')]⟩
          (by simp [Grid.rows_update, hR]) (by simp [Grid.cols_update, hC])
        dsimp only at hih
        omega
      · rw [if_neg h2]
        by_cases h3 : st.grid.peek (d.get_next cur) = some '🪹'
        · rw [if_pos h3]
          have hih := ih
            ⟨(st.grid.update (d.get_next cur) '🪺').update cur '🟩',
             st.coords, st.points + (10 + mv),
             st.log ++ [(d.get_next cur, '🪺'), (cur, '🟩')]⟩
            (by simp [Grid.rows_update, hR]) (by simp [Grid.cols_update, hC])
          dsimp only at hih
          omega
        · rw [if_neg h3]
          have hih := ih st hR hC
          omega

/-- Invariant of the inner loop: if the remaining pop list is sorted in
strictly-ahead-first order and every already-continuing egg is strictly
ahead of everything still to process, then after the loop the continuing
set is duplicate-free and each of its coordinates holds an egg. -/
theorem processEggs_inv (d : Dir) (mv : Int) :
    ∀ (rem : List Coord) (st : SimSt),
      rem.Pairwise (fun a b => pairLe (skey d b) (skey d a)) →
      st.grid.rect →
      (∀ a ∈ st.coords, st.grid.peek a = some '🥚') →
      st.coords.Nodup →
      (∀ a ∈ st.coords, ∀ x ∈ rem, (skey d x).1 < (skey d a).1) →
      (processEggs d mv rem st).grid.rect ∧
        (∀ a ∈ (processEggs d mv rem st).coords,
          (processEggs d mv rem st).grid.peek a = some '🥚') ∧
        (processEggs d mv rem st).coords.Nodup := by
  intro rem
  induction rem with
  | nil =>
    intro st _ hrect hegg hnd _
    exact ⟨hrect, hegg, hnd⟩
  | cons cur rest ih =>
    intro st hpw hrect hegg hnd hahead
    have hpw_rest := hpw.of_cons
    have hhead : ∀ x ∈ rest, pairLe (skey d x) (skey d cur) :=
      (List.pairwise_cons.mp hpw).1
    have hcur_ne : ∀ a ∈ st.coords, a ≠ cur := by
      intro a ha heq
      have hlt := hahead a ha cur (List.mem_cons_self cur rest)
      rw [heq] at hlt
      omega
    have hahead_rest : ∀ a ∈ st.coords, ∀ x ∈ rest, (skey d x).1 < (skey d a).1 :=
      fun a ha x hx => hahead a ha x (List.mem_cons_of_mem _ hx)
    simp only [processEggs]
    by_cases h1 : st.grid.peek (d.get_next cur) = some '🟩'
    · rw [if_pos h1]
      have hnin : st.grid.inb (d.get_next cur) := Grid.peek_some_inb h1
      have hnxt_ne_acc : ∀ a ∈ st.coords, a ≠ d.get_next cur := by
        intro a ha heq
        have h := hegg a ha
        rw [heq] at h
        exact absurd (h1.symm.trans h) (by decide)
      refine ih _ hpw_rest ?_ ?_ ?_ ?_
      · exact Grid.rect_update _ _ _ (Grid.rect_update _ _ _ hrect)
      · intro a ha
        rcases List.mem_append.mp ha with ha | ha
        · rw [Grid.peek_update_ne _ _ _ _ (hcur_ne a ha),
            Grid.peek_update_ne _ _ _ _ (hnxt_ne_acc a ha)]
          exact hegg a ha
        · have ha' : a = d.get_next cur := by simpa using ha
          subst ha'
          rw [Grid.peek_update_ne _ _ _ _ (get_next_ne d cur)]
          exact Grid.peek_update_self _ _ _ hnin hrect
      · refine List.nodup_append.mpr ⟨hnd, List.nodup_singleton _, ?_⟩
        intro a ha ha'
        have : a = d.get_next cur := by simpa using ha'
        exact hnxt_ne_acc a ha this
      · intro a ha x hx
        rcases List.mem_append.mp ha with ha | ha
        · exact hahead_rest a ha x hx
        · have ha' : a = d.get_next cur := by simpa using ha
          subst ha'
          have hle := hhead x hx
          have hk := skey_get_next d cur
          rw [hk]
          unfold pairLe at hle
          rcases hle with hle | ⟨hle, _⟩ <;> simp <;> omega
    · rw [if_neg h1]
      by_cases h2 : st.grid.peek (d.get_next cur) = some '🍳'
      · rw [if_pos h2]
        have hnxt_ne_acc : ∀ a ∈ st.coords, a ≠ d.get_next cur := by
          intro a ha heq
          have h := hegg a ha
          rw [heq] at h
          exact absurd (h2.symm.trans h) (by decide)
        refine ih _ hpw_rest ?_ ?_ hnd hahead_rest
        · exact Grid.rect_update _ _ _ (Grid.rect_update _ _ _ hrect)
        · intro a ha
          rw [Grid.peek_update_ne _ _ _ _ (hcur_ne a ha),
            Grid.peek_update_ne _ _ _ _ (hnxt_ne_acc a ha)]
          exact hegg a ha
      · rw [if_neg h2]
        by_cases h3 : st.grid.peek (d.get_next cur) = some '🪹'
        · rw [if_pos h3]
          have hnxt_ne_acc : ∀ a ∈ st.coords, a ≠ d.get_next cur := by
            intro a ha heq
            have h := hegg a ha
            rw [heq] at h
            exact absurd (h3.symm.trans h) (by decide)
          refine ih _ hpw_rest ?_ ?_ hnd hahead_rest
          · exact Grid.rect_update _ _ _ (Grid.rect_update _ _ _ hrect)
          · intro a ha
            rw [Grid.peek_update_ne _ _ _ _ (hcur_ne a ha),
              Grid.peek_update_ne _ _ _ _ (hnxt_ne_acc a ha)]
            exact hegg a ha
        · rw [if_neg h3]
          exact ih st hpw_rest hrect hegg hnd hahead_rest

theorem wave_dims (d : Dir) (mv : Int) (g : Grid) (coords : List Coord)
    (pts : Int) (log : List (Coord × Char)) :
    (wave d mv g coords pts log).grid.rows = g.rows ∧
      (wave d mv g coords pts log).grid.cols = g.cols :=
  processEggs_dims d mv (pop_order d coords) ⟨g, [], pts, log⟩

theorem wave_measure (d : Dir) (mv : Int) (R C : Nat) (g : Grid)
    (coords : List Coord) (pts : Int) (log : List (Coord × Char))
    (hR : g.rows = R) (hC : g.cols = C) :
    sumRoom d R C (wave d mv g coords pts log).coords +
        (wave d mv g coords pts log).coords.length ≤
      sumRoom d R C coords := by
  have h := processEggs_measure d mv R C (pop_order d coords)
    ⟨g, [], pts, log⟩ hR hC
  dsimp only at h
  rw [sumRoom_pop_order] at h
  simpa [sumRoom] using h

theorem waves_empty (d : Dir) (mv : Int) (fuel : Nat) (g : Grid) (pts : Int)
    (log : List (Coord × Char)) :
    waves d mv fuel g [] pts log = some ⟨g, [], pts, log⟩ := by
  cases fuel <;> simp [waves]

theorem waves_isSome_of_fuel (d : Dir) (mv : Int) :
    ∀ (fuel : Nat) (g : Grid) (coords : List Coord) (pts : Int)
      (log : List (Coord × Char)),
      sumRoom d g.rows g.cols coords < fuel →
      (waves d mv fuel g coords pts log).isSome := by
  intro fuel
  induction fuel with
  | zero =>
    intro g coords pts log h
    exact absurd h (Nat.not_lt_zero _)
  | succ n ih =>
    intro g coords pts log h
    simp only [waves]
    by_cases hx : coords.isEmpty
    · rw [if_pos hx]
      simp
    · rw [if_neg hx]
      have hrows := (wave_dims d mv g coords pts log).1
      have hcols := (wave_dims d mv g coords pts log).2
      have hm := wave_measure d mv g.rows g.cols g coords pts log rfl rfl
      rcases hwc : (wave d mv g coords pts log).coords with _ | ⟨c0, cs⟩
      · rw [waves_empty]
        simp
      · apply ih
        rw [hrows, hcols]
        rw [hwc] at hm
        have hlen : (c0 :: cs).length = cs.length + 1 := by simp
        omega

/-- Every coordinate `processEggs` writes to (the log) and every coordinate
it hands to the next wave is in bounds, provided the incoming ones are:
destinations are validated by `peek`, sources come from the incoming list. -/
theorem processEggs_log (d : Dir) (mv : Int) (R C : Nat) :
    ∀ (rem : List Coord) (st : SimSt),
      st.grid.rows = R → st.grid.cols = C →
      (∀ c ∈ rem, inbRC R C c) →
      (∀ c ∈ st.coords, inbRC R C c) →
      (∀ e ∈ st.log, inbRC R C e.1) →
      (∀ c ∈ (processEggs d mv rem st).coords, inbRC R C c) ∧
        (∀ e ∈ (processEggs d mv rem st).log, inbRC R C e.1) := by
  intro rem
  induction rem with
  | nil =>
    intro st _ _ _ hc hl
    exact ⟨hc, hl⟩
  | cons cur rest ih =>
    intro st hR hC hrem hc hl
    have hcur : inbRC R C cur := hrem cur (List.mem_cons_self cur rest)
    have hrem' : ∀ c ∈ rest, inbRC R C c :=
      fun c hx => hrem c (List.mem_cons_of_mem _ hx)
    simp only [processEggs]
    by_cases h1 : st.grid.peek (d.get_next cur) = some '🟩'
    · rw [if_pos h1]
      have hnxt : inbRC R C (d.get_next cur) := by
        have hb := Grid.peek_some_inb h1
        unfold Grid.inb at hb
        rw [hR, hC] at hb
        exact hb
      refine ih _ (by simp [Grid.rows_update, hR]) (by simp [Grid.cols_update, hC])
        hrem' ?_ ?_
      · intro c hmem
        rcases List.mem_append.mp hmem with hmem | hmem
        · exact hc c hmem
        · have : c = d.get_next cur := by simpa using hmem
          exact this ▸ hnxt
      · intro e hmem
        rcases List.mem_append.mp hmem with hmem | hmem
        · exact hl e hmem
        · rcases List.mem_cons.mp hmem with rfl | hmem
          · exact hnxt
          · have : e = (cur, '🟩') := by simpa using hmem
            rw [this]
            exact hcur
    · rw [if_neg h1]
      by_cases h2 : st.grid.peek (d.get_next cur) = some '🍳'
      · rw [if_pos h2]
        have hnxt : inbRC R C (d.get_next cur) := by
          have hb := Grid.peek_some_inb h2
          unfold Grid.inb at hb
          rw [hR, hC] at hb
          exact hb
        refine ih _ (by simp [Grid.rows_update, hR]) (by simp [Grid.cols_update, hC])
          hrem' hc ?_
        intro e hmem
        rcases List.mem_append.mp hmem with hmem | hmem
        · exact hl e hmem
        · rcases List.mem_cons.mp hmem with rfl | hmem
          · exact hnxt
          · have : e = (cur, '🟩') := by simpa using hmem
            rw [this]
            exact hcur
      · rw [if_neg h2]
        by_cases h3 : st.grid.peek (d.get_next cur) = some '🪹'
        · rw [if_pos h3]
          have hnxt : inbRC R C (d.get_next cur) := by
            have hb := Grid.peek_some_inb h3
            unfold Grid.inb at hb
            rw [hR, hC] at hb
            exact hb
          refine ih _ (by simp [Grid.rows_update, hR]) (by simp [Grid.cols_update, hC])
            hrem' hc ?_
          intro e hmem
          rcases List.mem_append.mp hmem with hmem | hmem
          · exact hl e hmem
          · rcases List.mem_cons.mp hmem with rfl | hmem
            · exact hnxt
            · have : e = (cur, '🟩') := by simpa using hmem
              rw [this]
              exact hcur
        · rw [if_neg h3]
          exact ih st hR hC hrem' hc hl

theorem wave_log (d : Dir) (mv : Int) (R C : Nat) (g : Grid)
    (coords : List Coord) (pts : Int) (log : List (Coord × Char))
    (hR : g.rows = R) (hC : g.cols = C)
    (hin : ∀ c ∈ coords, inbRC R C c) (hlog : ∀ e ∈ log, inbRC R C e.1) :
    (∀ c ∈ (wave d mv g coords pts log).coords, inbRC R C c) ∧
      (∀ e ∈ (wave d mv g coords pts log).log, inbRC R C e.1) :=
  processEggs_log d mv R C (pop_order d coords) ⟨g, [], pts, log⟩ hR hC
    (fun c hx => hin c (mem_pop_order.mp hx)) (by simp) hlog

theorem waves_log (d : Dir) (mv : Int) (R C : Nat) :
    ∀ (fuel : Nat) (g : Grid) (coords : List Coord) (pts : Int)
      (log : List (Coord × Char)),
      g.rows = R → g.cols = C →
      (∀ c ∈ coords, inbRC R C c) → (∀ e ∈ log, inbRC R C e.1) →
      ∀ st, waves d mv fuel g coords pts log = some st →
        ∀ e ∈ st.log, inbRC R C e.1 := by
  intro fuel
  induction fuel with
  | zero =>
    intro g coords pts log hR hC hin hlog st hst
    simp only [waves] at hst
    split at hst
    · cases hst
      exact hlog
    · exact absurd hst (by simp)
  | succ n ih =>
    intro g coords pts log hR hC hin hlog st hst
    simp only [waves] at hst
    split at hst
    · cases hst
      exact hlog
    · have hw := wave_log d mv R C g coords pts log hR hC hin hlog
      exact ih _ _ _ _ ((wave_dims d mv g coords pts log).1.trans hR)
        ((wave_dims d mv g coords pts log).2.trans hC) hw.1 hw.2 st hst

/-! ## Claim theorems -/

/-- The in-line coordinate of a cell: the column for a horizontal direction,
the row for a vertical one. -/
def inline_coord (d : Dir) (c : Coord) : Int :=
  match d.axis with
  | .HORIZONTAL => c.2
  | _ => c.1

/-- The coordinate on the axis orthogonal to motion: the row for a
horizontal direction, the column for a vertical one (two eggs lie on the
same line of motion exactly when these agree). -/
def ortho_coord (d : Dir) (c : Coord) : Int :=
  match d.axis with
  | .HORIZONTAL => c.1
  | _ => c.2

/-- C1: in the order a wave processes eggs, among eggs on the same line of
motion the egg closest to the direction of travel comes first — in-line
coordinates descend along the pop order for a positive-polarity direction
and ascend for a negative-polarity one, so a trailing egg is never
evaluated before a same-line egg ahead of it. -/
theorem pop_order_leading_egg_first (d : Dir) (coords : List Coord) :
    (pop_order d coords).Pairwise fun a b =>
      ortho_coord d a = ortho_coord d b →
        (d.polarity = Axis.POSITIVE → inline_coord d b ≤ inline_coord d a) ∧
        (d.polarity = Axis.NEGATIVE → inline_coord d a ≤ inline_coord d b) := by
  refine (pairwise_pop_order d coords).imp ?_
  intro a b h hortho
  cases d <;>
    simp only [skey, pairLe, ortho_coord, inline_coord, Dir.axis, Dir.polarity] at * <;>
    refine ⟨fun hp => ?_, fun hn => ?_⟩ <;>
    first
      | omega
      | simp at hp
      | simp at hn

/-- C2: after any wave, the continuing set handed to the next wave has
pairwise-distinct coordinates and every one of them holds an egg cell in
the grid as the wave left it. -/
theorem wave_no_overlap (d : Dir) (mv : Int) (g : Grid) (coords : List Coord)
    (pts : Int) (log : List (Coord × Char))
    (hrect : g.rect) (_hin : ∀ c ∈ coords, g.inb c) :
    (wave d mv g coords pts log).coords.Nodup ∧
      ∀ c ∈ (wave d mv g coords pts log).coords,
        (wave d mv g coords pts log).grid.peek c = some '🥚' := by
  have h := processEggs_inv d mv (pop_order d coords) ⟨g, [], pts, log⟩
    (pairwise_pop_order d coords) hrect (by simp) (by simp) (by simp)
  exact ⟨h.2.2, h.2.1⟩

theorem wave_no_overlap_witness :
    (wave Dir.r 5 [['🥚', '🟩']] [((0 : Int), (0 : Int))] 0 []).coords.Nodup ∧
      (wave Dir.r 5 [['🥚', '🟩']] [((0 : Int), (0 : Int))] 0 []).grid.peek
        ((0 : Int), (1 : Int)) = some '🥚' :=
  ⟨(wave_no_overlap Dir.r 5 [['🥚', '🟩']] [(0, 0)] 0 [] (by decide) (by decide)).1,
   (wave_no_overlap Dir.r 5 [['🥚', '🟩']] [(0, 0)] 0 [] (by decide) (by decide)).2
     ((0 : Int), (1 : Int)) (by decide)⟩

/-- C3: on the one-row grid egg–egg–floor with direction right, both eggs
shift right by exactly one cell: the final grid has distinct egg cells at
columns 1 and 2, never a single merged cell. -/
theorem game_logic_adjacent_eggs_shift :
    (game_logic Dir.r [['🥚', '🥚', '🟩']] 2
        [((0 : Int), (0 : Int)), ((0 : Int), (1 : Int))] 0).map
        (fun r => (r.grid, r.egg_coords)) =
      some ([['🟩', '🥚', '🥚']], [((0 : Int), (1 : Int)), ((0 : Int), (2 : Int))]) := by
  decide

/-- C4: the returned flag is non-terminal exactly when `moves - 1` is
non-zero and the egg set recomputed from the settled grid is non-empty;
the returned egg set is exactly that recomputation. -/
theorem game_logic_terminal_flag (d : Dir) (g : Grid) (mv : Int)
    (coords : List Coord) (pts : Int) (res : GLResult)
    (h : game_logic d g mv coords pts = some res) :
    (res.state = true ↔ (mv - 1 ≠ 0 ∧ res.egg_coords ≠ [])) ∧
      res.egg_coords = get_coords res.grid '🥚' := by
  unfold game_logic at h
  cases hw : waves d mv (sumRoom d g.rows g.cols coords + 1) g coords pts [] with
  | none =>
    rw [hw] at h
    exact absurd h (by simp)
  | some st =>
    rw [hw] at h
    dsimp only at h
    cases h
    constructor
    · simp [Bool.and_eq_true, decide_eq_true_eq]
    · rfl

theorem game_logic_terminal_flag_witness :
    ((false : Bool) = true ↔
        ((1 : Int) - 1 ≠ 0 ∧ ([((0 : Int), (0 : Int))] : List Coord) ≠ [])) ∧
      ([((0 : Int), (0 : Int))] : List Coord) = get_coords [['🥚']] '🥚' :=
  game_logic_terminal_flag Dir.r [['🥚']] 1 [] 0
    ⟨false, 1, [((0 : Int), (0 : Int))], 0, [['🥚']], []⟩ (by decide)

/-- C5: grid egg–floor–nest, direction right, moves 4, score 0: final score
14 (= 10 + 4), final cells floor–floor–closed-nest, egg gone from the
returned active set. -/
theorem game_logic_nest_scenario :
    (game_logic Dir.r [['🥚', '🟩', '🪹']] 4 [((0 : Int), (0 : Int))] 0).map
        (fun r => (r.points, r.grid, r.egg_coords)) =
      some (14, [['🟩', '🟩', '🪺']], []) := by
  decide

/-- C6: grid egg–floor–pan, direction right, moves 3, score 0: final score
−5, the pan cell still a pan, the egg's source cell floor, egg gone from
the returned active set. -/
theorem game_logic_pan_scenario :
    (game_logic Dir.r [['🥚', '🟩', '🍳']] 3 [((0 : Int), (0 : Int))] 0).map
        (fun r => (r.points, r.grid, r.egg_coords)) =
      some (-5, [['🟩', '🟩', '🍳']], []) := by
  decide

/-- C7: for every grid, direction, and in-bounds egg list, the wave loop of
`game_logic` settles within its fuel — the function returns a result. -/
theorem game_logic_terminates (d : Dir) (g : Grid) (mv : Int)
    (coords : List Coord) (pts : Int) (_hin : ∀ c ∈ coords, g.inb c) :
    (game_logic d g mv coords pts).isSome := by
  unfold game_logic
  have h := waves_isSome_of_fuel d mv (sumRoom d g.rows g.cols coords + 1)
    g coords pts [] (Nat.lt_succ_self _)
  cases hw : waves d mv (sumRoom d g.rows g.cols coords + 1) g coords pts [] with
  | none =>
    rw [hw] at h
    exact absurd h (by simp)
  | some st =>
    rfl

theorem game_logic_terminates_witness :
    (game_logic Dir.r [['🥚', '🟩']] 3 [((0 : Int), (0 : Int))] 0).isSome :=
  game_logic_terminates Dir.r [['🥚', '🟩']] 3 [(0, 0)] 0 (by decide)

/-- C8: with an in-bounds incoming egg list, every `grid.update` that
`game_logic` performs (recorded in the log, in execution order) writes an
in-bounds coordinate. -/
theorem game_logic_updates_in_bounds (d : Dir) (g : Grid) (mv : Int)
    (coords : List Coord) (pts : Int) (res : GLResult)
    (hin : ∀ c ∈ coords, g.inb c)
    (hres : game_logic d g mv coords pts = some res) :
    ∀ e ∈ res.log, inbRC g.rows g.cols e.1 := by
  unfold game_logic at hres
  cases hw : waves d mv (sumRoom d g.rows g.cols coords + 1) g coords pts [] with
  | none =>
    rw [hw] at hres
    exact absurd hres (by simp)
  | some st =>
    rw [hw] at hres
    dsimp only at hres
    cases hres
    intro e he
    exact waves_log d mv g.rows g.cols _ g coords pts [] rfl rfl
      (fun c hc => hin c hc) (by simp) st hw e he

theorem game_logic_updates_in_bounds_witness : inbRC 1 2 ((0 : Int), (1 : Int)) :=
  game_logic_updates_in_bounds Dir.r [['🥚', '🟩']] 3 [(0, 0)] 0
    ⟨true, 3, [((0 : Int), (1 : Int))], 0, [['🟩', '🥚']],
     [(((0 : Int), (1 : Int)), '🥚'), (((0 : Int), (0 : Int)), '🟩')]⟩
    (by decide) (by decide) (((0 : Int), (1 : Int)), '🥚') (by decide)

/-- C9 (code bug): a leaderboard already holding exactly `LENGTH = 10`
entries grows to 11 entries when a higher score arrives — the trim loop
tests the stale pre-append length, so nothing is ever popped. -/
theorem evaluate_keeps_eleven :
    (Leaderboard.evaluate
        [("p9", 10), ("p8", 9), ("p7", 8), ("p6", 7), ("p5", 6),
         ("p4", 5), ("p3", 4), ("p2", 3), ("p1", 2), ("p0", 1)]
        1 "newp" 100).map (fun p => p.1.length) = some 11 := by
  decide

/-- C10: the four direction symbols decode to the unit deltas
`l ↦ (0, −1)`, `r ↦ (0, +1)`, `f ↦ (−1, 0)`, `b ↦ (+1, 0)`; `get_next`
decreases the row for `f` and increases it for `b`; `f` and `l` carry
negative polarity, `r` and `b` positive. -/
theorem direction_decode :
    Dir.coord .l = (0, -1) ∧ Dir.coord .r = (0, 1) ∧
      Dir.coord .f = (-1, 0) ∧ Dir.coord .b = (1, 0) ∧
      (∀ c : Coord, Dir.get_next .f c = (c.1 - 1, c.2)) ∧
      (∀ c : Coord, Dir.get_next .b c = (c.1 + 1, c.2)) ∧
      Dir.polarity .f = Axis.NEGATIVE ∧ Dir.polarity .l = Axis.NEGATIVE ∧
      Dir.polarity .r = Axis.POSITIVE ∧ Dir.polarity .b = Axis.POSITIVE := by
  refine ⟨rfl, rfl, rfl, rfl, fun c => ?_, fun c => ?_, rfl, rfl, rfl, rfl⟩
  · simp [Dir.get_next, Dir.coord, Prod.ext_iff]
    omega
  · simp [Dir.get_next, Dir.coord, Prod.ext_iff]
